import Mathlib

/-
Verification of the nix-sweep core against its natural-language specification.

The Rust sources are shallowly embedded: hash maps become association lists
with insert-overwrite semantics, filesystem trees become an inductive type
whose constructors record the readability outcomes the code branches on,
durations and sizes become natural numbers, and the external `nix-store`
collaborator becomes an explicit function parameter producing a modelled
process result.
-/

set_option autoImplicit false

namespace NixSweep

/-! ## Association lists modelling `HashMap` insert/extend

The Rust code stores per-inode sizes in a `HashMap<(u64, u64), u64>` and
merges maps with `HashMap::extend` (later inserts overwrite earlier ones).
We model such a map as an association list with unique keys; `insertA`
overwrites the value of an existing key in place and appends a fresh key at
the end, which reproduces the key-set and value semantics of the hash map.
-/

/-- Key of the inode table: a `(device id, inode number)` pair. -/
abbrev InoKey := Nat × Nat

/-- One entry of the inode table: key and file size in bytes. -/
abbrev InoEntry := InoKey × Nat

/-- Association list used to model `HashMap<InoKey, u64>`. -/
abbrev AList := List InoEntry

/-- Model of `HashMap::insert`: overwrite the value of an existing key,
append a new key at the end. -/
def insertA (m : AList) (e : InoEntry) : AList :=
  match m with
  | [] => [e]
  | kv :: rest =>
      if kv.1 = e.1 then (kv.1, e.2) :: rest else kv :: insertA rest e

/-- Model of `HashMap::extend`: fold all entries of the second map into the
first, overwriting on key collisions. -/
def extendA (m m' : AList) : AList :=
  m'.foldl insertA m

/-- Fold a flat list of entries into a map, in order. -/
def foldIns (m : AList) (l : List InoEntry) : AList :=
  l.foldl insertA m

/-- Model of `HashMap::values().sum()`. -/
def sumValues (m : AList) : Nat :=
  (m.map (·.2)).sum

/-- Sum of the sizes of a flat list of file entries (with multiplicity). -/
def sumSizes (l : List InoEntry) : Nat :=
  (l.map (·.2)).sum

/-- Keys of an association list. -/
def keysA (m : AList) : List InoKey :=
  m.map (·.1)

/-- Lookup in the association list. -/
def lookupA (m : AList) (k : InoKey) : Option Nat :=
  match m with
  | [] => none
  | kv :: rest => if kv.1 = k then some kv.2 else lookupA rest k

theorem keysA_insertA (m : AList) (e : InoEntry) :
    keysA (insertA m e) = if e.1 ∈ keysA m then keysA m else keysA m ++ [e.1] := by
  induction m with
  | nil => simp [insertA, keysA]
  | cons kv rest ih =>
      by_cases h : kv.1 = e.1
      · simp [insertA, keysA, h]
      · have h' : e.1 ≠ kv.1 := fun hh => h hh.symm
        simp only [insertA, if_neg h, keysA, List.map_cons, List.mem_cons]
        simp only [keysA] at ih
        rw [ih]
        by_cases hm : e.1 ∈ rest.map (·.1)
        · simp [hm, h']
        · simp [hm, h']

theorem sumValues_insertA_mem (m : AList) (e : InoEntry) (h : e.1 ∈ keysA m) :
    ∃ v, lookupA m e.1 = some v ∧
      sumValues (insertA m e) + v = sumValues m + e.2 := by
  induction m with
  | nil => simp [keysA] at h
  | cons kv rest ih =>
      by_cases hk : kv.1 = e.1
      · refine ⟨kv.2, ?_, ?_⟩
        · simp [lookupA, hk]
        · simp [insertA, hk, sumValues]
          omega
      · have hmem : e.1 ∈ keysA rest := by
          simp [keysA] at h ⊢
          rcases h with h | h
          · exact absurd h.symm hk
          · exact h
        obtain ⟨v, hv, hsum⟩ := ih hmem
        refine ⟨v, ?_, ?_⟩
        · have hk' : ¬ kv.1 = e.1 := hk
          simp [lookupA, hk', hv]
        · simp [insertA, hk, sumValues] at hsum ⊢
          omega

theorem sumValues_insertA_not_mem (m : AList) (e : InoEntry) (h : e.1 ∉ keysA m) :
    sumValues (insertA m e) = sumValues m + e.2 := by
  induction m with
  | nil => simp [insertA, sumValues]
  | cons kv rest ih =>
      have hk : ¬ kv.1 = e.1 := by
        intro hh
        exact h (by simp [keysA, hh])
      have h' : e.1 ∉ keysA rest := fun hm => h (by simp [keysA] at hm ⊢; exact Or.inr hm)
      simp [insertA, hk, sumValues] at ih ⊢
      have := ih h'
      omega

theorem sumValues_insertA_le (m : AList) (e : InoEntry) :
    sumValues (insertA m e) ≤ sumValues m + e.2 := by
  by_cases h : e.1 ∈ keysA m
  · obtain ⟨v, _, hsum⟩ := sumValues_insertA_mem m e h
    omega
  · rw [sumValues_insertA_not_mem m e h]

/-! ## Filesystem trees and the size calculators (`files.rs`)

A tree records exactly the distinctions `files.rs` branches on:
a regular file carries its `(dev, ino)` key and size; a directory either
yields its children or fails `read_dir`; `other` covers symlinks and special
files (`is_dir`/`is_file` both false); `inaccessible` is a path whose
`symlink_metadata` call fails. `Fs`/`FsList` are mutually inductive so that
all recursions below are structural.
-/

mutual
inductive Fs where
  | file (dev ino size : Nat)
  | dir (rd : Option FsList)
  | other
  | inaccessible
inductive FsList where
  | nil
  | cons (hd : Fs) (tl : FsList)
end

mutual
/-- Does the task-queue walk of `dir_size_naive` hit a directory whose
`read_dir` fails? In the source this triggers `return 0`, which exits the
whole `while` loop and discards the accumulated size. -/
def naiveAborts : Fs → Bool
  | .file _ _ _ => false
  | .other => false
  | .inaccessible => false
  | .dir none => true
  | .dir (some cs) => naiveAbortsList cs
def naiveAbortsList : FsList → Bool
  | .nil => false
  | .cons x xs => naiveAborts x || naiveAbortsList xs
end

mutual
/-- Sum accumulated by the `dir_size_naive` loop when no abort occurs:
`metadata.len()` of every reachable regular file; unreadable entries are
skipped by the `Err(_) => continue` arms. -/
def naiveSum : Fs → Nat
  | .file _ _ s => s
  | .dir (some cs) => naiveSumList cs
  | .dir none => 0
  | .other => 0
  | .inaccessible => 0
def naiveSumList : FsList → Nat
  | .nil => 0
  | .cons x xs => naiveSum x + naiveSumList xs
end

/-- Model of `dir_size_naive` (`files.rs:28-73`): the task queue drains
breadth-first; an `Err` from `symlink_metadata` skips that entry
(`continue`), but an `Err` from `read_dir` executes `return 0`, which aborts
the entire walk with total 0. Otherwise the walk completes and returns the
sum of all reachable regular file sizes. -/
def dir_size_naive (t : Fs) : Nat :=
  if naiveAborts t then 0 else naiveSum t

mutual
/-- The multiset (in traversal order) of regular-file entries the helper
walk reaches: key `(dev, ino)` paired with the file size. -/
def filesList : Fs → List InoEntry
  | .file d i s => [((d, i), s)]
  | .dir none => []
  | .dir (some cs) => filesListL cs
  | .other => []
  | .inaccessible => []
def filesListL : FsList → List InoEntry
  | .nil => []
  | .cons x xs => filesList x ++ filesListL xs
end

mutual
/-- Model of `dir_size_hl_helper` (`files.rs:165-197`): per-inode size map;
failed `symlink_metadata` or `read_dir` yields the empty map for that
subtree only; directory children are merged with `HashMap::extend`. -/
def dir_size_hl_helper : Fs → AList
  | .file d i s => [((d, i), s)]
  | .dir none => []
  | .dir (some cs) => hlHelperList [] cs
  | .other => []
  | .inaccessible => []
def hlHelperList : AList → FsList → AList
  | acc, .nil => acc
  | acc, .cons x xs => hlHelperList (extendA acc (dir_size_hl_helper x)) xs
end

/-- Model of `dir_size_considering_hardlinks` (`files.rs:126-132`): sum of
the values of the helper's inode map. The `INODE_CACHE` is modelled as
transparent. Modelled from the spec: the `Cache::insert_inline` method the
source calls is absent from `caching.rs`; per the spec a cache "miss must
always be recoverable by recomputing the value", so `insert_inline` stores
the freshly computed map and returns it unchanged. -/
def dir_size_considering_hardlinks (t : Fs) : Nat :=
  sumValues (dir_size_hl_helper t)

/-- Model of `dir_size_considering_hardlinks_all` (`files.rs:109-124`)
exactly as the source compiles: the body begins with `return 1;`, so the
function returns 1 for every batch of roots; the deduplicating code below
that statement is unreachable. -/
def dir_size_considering_hardlinks_all (_roots : List Fs) : Nat := 1

/-- The deduplicating logic written below the early `return 1;` of
`dir_size_considering_hardlinks_all` (dead code in the source as given):
merge every root's inode map into one global map with `extend` and sum the
values. The `INODE_CACHE` is modelled as transparent, as above. -/
def dir_size_hardlinks_all_unreachable (roots : List Fs) : Nat :=
  sumValues (roots.foldl (fun acc t => extendA acc (dir_size_hl_helper t)) [])

/-! ### Association-list algebra

The lemmas below let us rewrite the tree-shaped `extend` merges of the
helper into a single left fold over the flat file list, from which the
naive/deduplicated comparison follows.
-/

theorem extendA_nil (m : AList) : extendA m [] = m := rfl

theorem extendA_cons (m : AList) (kv : InoEntry) (l : AList) :
    extendA m (kv :: l) = extendA (insertA m kv) l := rfl

theorem foldIns_nil (m : AList) : foldIns m [] = m := rfl

theorem foldIns_cons (m : AList) (e : InoEntry) (l : List InoEntry) :
    foldIns m (e :: l) = foldIns (insertA m e) l := rfl

theorem foldIns_append (m : AList) (l₁ l₂ : List InoEntry) :
    foldIns m (l₁ ++ l₂) = foldIns (foldIns m l₁) l₂ := by
  simp [foldIns, List.foldl_append]

theorem mem_keysA_insertA_of_mem (m : AList) (e : InoEntry) (k : InoKey)
    (h : k ∈ keysA m) : k ∈ keysA (insertA m e) := by
  rw [keysA_insertA]
  by_cases hm : e.1 ∈ keysA m <;> simp [hm, h]

theorem nodup_keysA_insertA (m : AList) (e : InoEntry)
    (h : (keysA m).Nodup) : (keysA (insertA m e)).Nodup := by
  rw [keysA_insertA]
  by_cases hm : e.1 ∈ keysA m
  · simpa [hm] using h
  · rw [if_neg hm]
    refine h.append (List.nodup_singleton _) ?_
    intro a ha hb
    simp at hb
    subst hb
    exact hm ha

theorem nodup_keysA_foldIns (l : List InoEntry) (m : AList)
    (h : (keysA m).Nodup) : (keysA (foldIns m l)).Nodup := by
  induction l generalizing m with
  | nil => simpa [foldIns]
  | cons e l ih => exact ih (insertA m e) (nodup_keysA_insertA m e h)

theorem insertA_overwrite (m : AList) (k : InoKey) (v w : Nat) :
    insertA (insertA m (k, w)) (k, v) = insertA m (k, v) := by
  induction m with
  | nil => simp [insertA]
  | cons kv rest ih =>
      by_cases h : kv.1 = k
      · simp [insertA, h]
      · simp [insertA, h, ih]

theorem keysA_insertA_value_irrelevant (m : AList) (k : InoKey) (v w : Nat) :
    keysA (insertA m (k, v)) = keysA (insertA m (k, w)) := by
  rw [keysA_insertA, keysA_insertA]

theorem insertA_comm_mem (m : AList) (e : InoEntry) (k : InoKey) (v : Nat)
    (hmem : k ∈ keysA m) (hne : e.1 ≠ k) :
    insertA (insertA m (k, v)) e = insertA (insertA m e) (k, v) := by
  induction m with
  | nil => simp [keysA] at hmem
  | cons kv rest ih =>
      have hke : ¬ (k = e.1) := fun hh => hne hh.symm
      by_cases h1 : kv.1 = k
      · have h2 : ¬ kv.1 = e.1 := fun hh => hne ((Eq.symm hh).trans h1)
        simp [insertA, h1, h2, hke]
      · by_cases h2 : kv.1 = e.1
        · simp [insertA, h1, h2, hne]
        · have hmem' : k ∈ keysA rest := by
            rw [show keysA (kv :: rest) = kv.1 :: keysA rest from rfl,
              List.mem_cons] at hmem
            rcases hmem with h | h
            · exact absurd h.symm h1
            · exact h
          simp [insertA, h1, h2, ih hmem']

theorem extendA_insert_comm (l : AList) (m : AList) (k : InoKey) (v : Nat)
    (hmem : k ∈ keysA m) (hk : ∀ p ∈ l, p.1 ≠ k) :
    extendA (insertA m (k, v)) l = insertA (extendA m l) (k, v) := by
  induction l generalizing m with
  | nil => simp [extendA_nil]
  | cons e l ih =>
      rw [extendA_cons, extendA_cons]
      rw [insertA_comm_mem m e k v hmem (hk e (by simp))]
      exact ih (insertA m e) (mem_keysA_insertA_of_mem m e k hmem)
        (fun p hp => hk p (by simp [hp]))

theorem extendA_insertA (m₀ : AList) (m : AList) (e : InoEntry)
    (hnd : (keysA m₀).Nodup) :
    extendA m (insertA m₀ e) = insertA (extendA m m₀) e := by
  induction m₀ generalizing m with
  | nil => simp [insertA, extendA_cons, extendA_nil]
  | cons kv rest ih =>
      have hnd2 : kv.1 ∉ keysA rest ∧ (keysA rest).Nodup := by
        rw [show keysA (kv :: rest) = kv.1 :: keysA rest from rfl,
          List.nodup_cons] at hnd
        exact hnd
      by_cases h : kv.1 = e.1
      · obtain ⟨k1, w⟩ := kv
        obtain ⟨k2, v⟩ := e
        simp only at h
        subst h
        have hrest : ∀ p ∈ rest, p.1 ≠ k1 := by
          intro p hp hh
          apply hnd2.1
          rw [← hh]
          simp only [keysA, List.mem_map]
          exact ⟨p, hp, rfl⟩
        calc extendA m (insertA ((k1, w) :: rest) (k1, v))
            = extendA (insertA m (k1, v)) rest := by
              simp [insertA, extendA_cons]
          _ = extendA (insertA (insertA m (k1, w)) (k1, v)) rest := by
              rw [insertA_overwrite]
          _ = insertA (extendA (insertA m (k1, w)) rest) (k1, v) := by
              refine extendA_insert_comm rest _ k1 v ?_ hrest
              rw [keysA_insertA]
              by_cases hm : k1 ∈ keysA m <;> simp [hm]
          _ = insertA (extendA m ((k1, w) :: rest)) (k1, v) := by
              rw [extendA_cons]
      · calc extendA m (insertA (kv :: rest) e)
            = extendA (insertA m kv) (insertA rest e) := by
              simp [insertA, h, extendA_cons]
          _ = insertA (extendA (insertA m kv) rest) e := ih (insertA m kv) hnd2.2
          _ = insertA (extendA m (kv :: rest)) e := by rw [extendA_cons]

theorem extendA_foldIns (l : List InoEntry) (m m₀ : AList)
    (hnd : (keysA m₀).Nodup) :
    extendA m (foldIns m₀ l) = foldIns (extendA m m₀) l := by
  induction l generalizing m₀ with
  | nil => simp [foldIns_nil]
  | cons e l ih =>
      rw [foldIns_cons, foldIns_cons,
        ih (insertA m₀ e) (nodup_keysA_insertA m₀ e hnd),
        extendA_insertA m₀ m e hnd]

theorem extendA_foldIns_nil (m : AList) (l : List InoEntry) :
    extendA m (foldIns [] l) = foldIns m l := by
  have := extendA_foldIns l m [] (by simp [keysA])
  simpa [extendA_nil] using this

theorem sumSizes_append (l₁ l₂ : List InoEntry) :
    sumSizes (l₁ ++ l₂) = sumSizes l₁ + sumSizes l₂ := by
  simp [sumSizes]

mutual
theorem naiveSum_eq_sumSizes : ∀ t : Fs, naiveSum t = sumSizes (filesList t)
  | .file d i s => by simp [naiveSum, filesList, sumSizes]
  | .dir none => by simp [naiveSum, filesList, sumSizes]
  | .dir (some cs) => by
      rw [show naiveSum (.dir (some cs)) = naiveSumList cs from rfl,
        show filesList (.dir (some cs)) = filesListL cs from rfl]
      exact naiveSumList_eq_sumSizes cs
  | .other => by simp [naiveSum, filesList, sumSizes]
  | .inaccessible => by simp [naiveSum, filesList, sumSizes]
theorem naiveSumList_eq_sumSizes : ∀ l : FsList, naiveSumList l = sumSizes (filesListL l)
  | .nil => by simp [naiveSumList, filesListL, sumSizes]
  | .cons x xs => by
      rw [show naiveSumList (.cons x xs) = naiveSum x + naiveSumList xs from rfl,
        show filesListL (.cons x xs) = filesList x ++ filesListL xs from rfl,
        sumSizes_append, naiveSum_eq_sumSizes x, naiveSumList_eq_sumSizes xs]
end

mutual
theorem hlHelper_eq_foldIns : ∀ t : Fs, dir_size_hl_helper t = foldIns [] (filesList t)
  | .file d i s => by simp [dir_size_hl_helper, filesList, foldIns, insertA]
  | .dir none => by simp [dir_size_hl_helper, filesList, foldIns]
  | .dir (some cs) => by
      rw [show dir_size_hl_helper (.dir (some cs)) = hlHelperList [] cs from rfl,
        show filesList (.dir (some cs)) = filesListL cs from rfl]
      exact hlHelperList_eq_foldIns cs []
  | .other => by simp [dir_size_hl_helper, filesList, foldIns]
  | .inaccessible => by simp [dir_size_hl_helper, filesList, foldIns]
theorem hlHelperList_eq_foldIns :
    ∀ (l : FsList) (acc : AList), hlHelperList acc l = foldIns acc (filesListL l)
  | .nil, acc => by simp [hlHelperList, filesListL, foldIns]
  | .cons x xs, acc => by
      rw [show hlHelperList acc (.cons x xs)
            = hlHelperList (extendA acc (dir_size_hl_helper x)) xs from rfl,
        show filesListL (.cons x xs) = filesList x ++ filesListL xs from rfl,
        hlHelperList_eq_foldIns xs _, hlHelper_eq_foldIns x,
        extendA_foldIns_nil, foldIns_append]
end

theorem sumValues_foldIns_le (l : List InoEntry) (m : AList) :
    sumValues (foldIns m l) ≤ sumValues m + sumSizes l := by
  induction l generalizing m with
  | nil => simp [foldIns_nil, sumSizes]
  | cons e l ih =>
      rw [foldIns_cons]
      calc sumValues (foldIns (insertA m e) l)
          ≤ sumValues (insertA m e) + sumSizes l := ih (insertA m e)
        _ ≤ (sumValues m + e.2) + sumSizes l := by
            have := sumValues_insertA_le m e
            omega
        _ = sumValues m + sumSizes (e :: l) := by
            simp [sumSizes]
            omega

/-- Deduplicated size never exceeds the abort-free naive sum. -/
theorem dedup_le_naiveSum (t : Fs) :
    dir_size_considering_hardlinks t ≤ naiveSum t := by
  rw [naiveSum_eq_sumSizes, dir_size_considering_hardlinks, hlHelper_eq_foldIns]
  have := sumValues_foldIns_le (filesList t) []
  simpa [sumValues] using this

/-! ### When naive and deduplicated totals coincide

On a real filesystem two paths with the same `(dev, ino)` key are hardlinks
to one inode and report the same size; `wellFormedSizes` captures this.
The `penaltyAux` accumulator measures exactly the bytes the naive sum counts
beyond the deduplicated sum: the sizes of the occurrences whose key was
already seen. -/

/-- Same `(dev, ino)` key implies same reported size (true of any real
filesystem snapshot, where the key identifies one inode). -/
def wellFormedSizes (l : List InoEntry) : Prop :=
  ∀ e₁ ∈ l, ∀ e₂ ∈ l, e₁.1 = e₂.1 → e₁.2 = e₂.2

/-- Every file whose `(dev, ino)` key is referenced by two or more counted
files has size zero. -/
def dupKeySizesZero (l : List InoEntry) : Prop :=
  ∀ e ∈ l, 2 ≤ (l.map (·.1)).count e.1 → e.2 = 0

instance decWellFormedSizes (l : List InoEntry) : Decidable (wellFormedSizes l) :=
  inferInstanceAs (Decidable (∀ e₁ ∈ l, ∀ e₂ ∈ l, e₁.1 = e₂.1 → e₁.2 = e₂.2))

instance decDupKeySizesZero (l : List InoEntry) : Decidable (dupKeySizesZero l) :=
  inferInstanceAs (Decidable (∀ e ∈ l, 2 ≤ (l.map (·.1)).count e.1 → e.2 = 0))

/-- Bytes the naive sum counts beyond the deduplicated sum: sizes of the
occurrences whose key already appeared. -/
def penaltyAux : List InoKey → List InoEntry → Nat
  | _, [] => 0
  | seen, e :: rest => (if e.1 ∈ seen then e.2 else 0) + penaltyAux (e.1 :: seen) rest

theorem lookupA_insertA (m : AList) (e : InoEntry) (k : InoKey) :
    lookupA (insertA m e) k = if e.1 = k then some e.2 else lookupA m k := by
  induction m with
  | nil => simp [insertA, lookupA]
  | cons kv rest ih =>
      by_cases h : kv.1 = e.1
      · by_cases hk : e.1 = k
        · simp [insertA, lookupA, h, hk]
        · have : ¬ kv.1 = k := by rw [h]; exact hk
          simp [insertA, lookupA, h, hk, this]
      · by_cases hk : kv.1 = k
        · have h1 : e.1 ≠ k := by rw [← hk]; exact fun hh => h hh.symm
          have h2 : ¬ (k = e.1) := fun hh => h1 hh.symm
          simp [insertA, lookupA, h, hk, h1, h2]
        · simp [insertA, lookupA, h, hk, ih]

theorem penaltyAux_congr (l : List InoEntry) (s₁ s₂ : List InoKey)
    (h : ∀ k, k ∈ s₁ ↔ k ∈ s₂) : penaltyAux s₁ l = penaltyAux s₂ l := by
  induction l generalizing s₁ s₂ with
  | nil => simp [penaltyAux]
  | cons e rest ih =>
      have hmem : (e.1 ∈ s₁) = (e.1 ∈ s₂) := propext (h e.1)
      simp only [penaltyAux, hmem]
      rw [ih (e.1 :: s₁) (e.1 :: s₂) (by intro k; simp [h k])]

theorem mem_keysA_insertA_iff (m : AList) (e : InoEntry) (k : InoKey) :
    k ∈ keysA (insertA m e) ↔ k ∈ e.1 :: keysA m := by
  rw [keysA_insertA]
  by_cases hm : e.1 ∈ keysA m
  · simp only [if_pos hm, List.mem_cons]
    constructor
    · exact Or.inr
    · rintro (h | h)
      · rwa [h]
      · exact h
  · simp [if_neg hm, List.mem_cons, List.mem_append]
    tauto

theorem sumSizes_decomp (l : List InoEntry) (m : AList)
    (hcompat : ∀ e ∈ l, ∀ v, lookupA m e.1 = some v → v = e.2)
    (hwf : wellFormedSizes l) :
    sumValues (foldIns m l) + penaltyAux (keysA m) l = sumValues m + sumSizes l := by
  induction l generalizing m with
  | nil => simp [foldIns_nil, penaltyAux, sumSizes]
  | cons e rest ih =>
      rw [foldIns_cons]
      have hcongr : penaltyAux (e.1 :: keysA m) rest
          = penaltyAux (keysA (insertA m e)) rest :=
        penaltyAux_congr rest _ _ (fun k => (mem_keysA_insertA_iff m e k).symm)
      have hcompat' : ∀ e' ∈ rest, ∀ v, lookupA (insertA m e) e'.1 = some v → v = e'.2 := by
        intro e' he' v hv
        rw [lookupA_insertA] at hv
        by_cases hke : e.1 = e'.1
        · rw [if_pos hke] at hv
          have h2 : e.2 = e'.2 :=
            hwf e (by simp) e' (by simp [he']) hke
          rw [← h2]
          exact (Option.some_inj.mp hv).symm
        · rw [if_neg hke] at hv
          exact hcompat e' (by simp [he']) v hv
      have hwf' : wellFormedSizes rest := by
        intro e₁ h₁ e₂ h₂ hk
        exact hwf e₁ (by simp [h₁]) e₂ (by simp [h₂]) hk
      have hIH := ih (insertA m e) hcompat' hwf'
      simp only [penaltyAux, sumSizes, List.map_cons, List.sum_cons]
      rw [hcongr]
      by_cases hk : e.1 ∈ keysA m
      · obtain ⟨v, hv, hsum⟩ := sumValues_insertA_mem m e hk
        have hve : v = e.2 := hcompat e (by simp) v hv
        simp only [sumSizes, if_pos hk] at hIH ⊢
        omega
      · have := sumValues_insertA_not_mem m e hk
        simp only [sumSizes, if_neg hk] at hIH ⊢
        omega

theorem penaltyAux_zero_mem (l : List InoEntry) (seen : List InoKey)
    (h : penaltyAux seen l = 0) : ∀ e ∈ l, e.1 ∈ seen → e.2 = 0 := by
  induction l generalizing seen with
  | nil => intro e he; simp at he
  | cons b rest ih =>
      simp only [penaltyAux, Nat.add_eq_zero] at h
      intro e he hseen
      rcases List.mem_cons.mp he with he | he
      · subst he
        rw [if_pos hseen] at h
        exact h.1
      · exact ih (b.1 :: seen) h.2 e he (by simp [hseen])

theorem penaltyAux_zero_of_dupZero (l : List InoEntry) (seen : List InoKey)
    (h0 : ∀ e ∈ l, e.1 ∈ seen → e.2 = 0)
    (hd : dupKeySizesZero l) : penaltyAux seen l = 0 := by
  induction l generalizing seen with
  | nil => simp [penaltyAux]
  | cons a rest ih =>
      simp only [penaltyAux, Nat.add_eq_zero]
      constructor
      · by_cases ha : a.1 ∈ seen
        · rw [if_pos ha]; exact h0 a (by simp) ha
        · rw [if_neg ha]
      · refine ih (a.1 :: seen) ?_ ?_
        · intro e' he' hseen
          rcases List.mem_cons.mp hseen with hh | hh
          · refine hd e' (by simp [he']) ?_
            have h1 : e'.1 ∈ rest.map (·.1) := List.mem_map.mpr ⟨e', he', rfl⟩
            have h2 : 1 ≤ (rest.map (·.1)).count e'.1 := List.count_pos_iff.mpr h1
            rw [hh] at h2
            simp only [List.map_cons, hh, List.count_cons_self]
            omega
          · exact h0 e' (by simp [he']) hh
        · intro e' he' hcnt
          refine hd e' (by simp [he']) ?_
          simp only [List.map_cons]
          by_cases hea : e'.1 = a.1
          · rw [hea, List.count_cons_self]
            rw [hea] at hcnt
            omega
          · rw [List.count_cons_of_ne hea]
            exact hcnt

theorem dupZero_of_penaltyAux_zero (l : List InoEntry) (seen : List InoKey)
    (hwf : wellFormedSizes l)
    (h : penaltyAux seen l = 0) : dupKeySizesZero l := by
  induction l generalizing seen with
  | nil => intro e he; simp at he
  | cons a rest ih =>
      simp only [penaltyAux, Nat.add_eq_zero] at h
      have hwf' : wellFormedSizes rest := by
        intro e₁ h₁ e₂ h₂ hk
        exact hwf e₁ (by simp [h₁]) e₂ (by simp [h₂]) hk
      intro e he hcnt
      rcases List.mem_cons.mp he with he | he
      · subst he
        simp only [List.map_cons, List.count_cons_self] at hcnt
        have h1 : 1 ≤ (rest.map (·.1)).count e.1 := by omega
        have h2 : e.1 ∈ rest.map (·.1) := List.count_pos_iff.mp h1
        obtain ⟨e', he', hke⟩ := List.mem_map.mp h2
        have hz : e'.2 = 0 :=
          penaltyAux_zero_mem rest (e.1 :: seen) h.2 e' he' (by simp [hke])
        have := hwf e (by simp) e' (by simp [he']) hke.symm
        omega
      · by_cases hea : e.1 = a.1
        · exact penaltyAux_zero_mem rest (a.1 :: seen) h.2 e he (by simp [hea])
        · refine ih (a.1 :: seen) hwf' h.2 e he ?_
          simpa [List.count_cons_of_ne hea] using hcnt

/-! ### Concrete trees used as inputs below -/

/-- A directory holding two hardlinks to one zero-sized inode `(1, 7)`. -/
def c4dupTree : Fs := .dir (some (.cons (.file 1 7 0) (.cons (.file 1 7 0) .nil)))

/-- A directory with an unreadable subdirectory next to a 5-byte file. -/
def abortTree : Fs := .dir (some (.cons (.dir none) (.cons (.file 1 1 5) .nil)))

/-- A directory with an unreadable plain file next to a 5-byte file. -/
def unreadableFileTree : Fs :=
  .dir (some (.cons (.file 1 1 5) (.cons .inaccessible .nil)))

/-- C1: the batch entry point `dir_size_considering_hardlinks_all` is claimed
to return the sum of the sizes of the distinct inodes reachable from the
union of the roots, counting each `(dev, ino)` key once. The compiled body
instead begins with `return 1;`, so every batch yields the constant 1; the
deduplicating logic below that statement (which would return 0 for an empty
batch and 7 for two roots hardlinked to one 7-byte inode) is unreachable. -/
theorem c1_all_returns_constant_one :
    (∀ roots : List Fs, dir_size_considering_hardlinks_all roots = 1) ∧
    dir_size_hardlinks_all_unreachable [] = 0 ∧
    dir_size_hardlinks_all_unreachable [.file 1 1 7, .file 1 1 7] = 7 :=
  ⟨fun _ => rfl, rfl, rfl⟩

/-- C7: an unreadable plain file is skipped as claimed (left conjunct), but
a directory whose `read_dir` fails triggers `return 0` inside the task loop
of `dir_size_naive`, aborting the whole walk: the readable 5-byte file
elsewhere in the tree is discarded and the total is 0, not 5. -/
theorem c7_unreadable_dir_aborts_walk :
    dir_size_naive unreadableFileTree = 5 ∧
    dir_size_naive abortTree = 0 ∧ naiveSum abortTree = 5 := by
  decide

/-- C4 counterexample: the claim fails on the code in three concrete ways.
First, two hardlinks to a zero-sized inode make the naive and deduplicated
totals equal although two counted files share a key, refuting the claimed
"equal iff no two files share a key". Second, a tree with an unreadable
subdirectory has naive total 0 (the walk aborts, cf. C7) strictly below its
deduplicated total 5. Third, `dir_size_considering_hardlinks_all` returns
the constant 1 (cf. C1), exceeding the naive total 0 of an empty batch
member. -/
theorem c4_counterexample :
    (dir_size_naive c4dupTree = dir_size_considering_hardlinks c4dupTree ∧
      ¬ ((filesList c4dupTree).map (·.1)).Nodup) ∧
    dir_size_naive abortTree < dir_size_considering_hardlinks abortTree ∧
    dir_size_naive Fs.other < dir_size_considering_hardlinks_all [Fs.other] := by
  decide

/-- C4 amended: on trees where the naive walk completes (no aborting
`read_dir` failure, cf. C7) and sizes are inode-consistent, the naive total
is at least the deduplicated total of `dir_size_considering_hardlinks`, and
the two are equal exactly when every `(dev, ino)` key shared by two or more
counted files has size zero. (`dir_size_considering_hardlinks_all` is
excluded: it returns the constant 1, cf. C1.) -/
theorem c4_naive_ge_dedup_eq_iff (t : Fs)
    (habort : naiveAborts t = false)
    (hwf : wellFormedSizes (filesList t)) :
    dir_size_considering_hardlinks t ≤ dir_size_naive t ∧
    (dir_size_naive t = dir_size_considering_hardlinks t ↔
      dupKeySizesZero (filesList t)) := by
  have hnaive : dir_size_naive t = naiveSum t := by
    simp [dir_size_naive, habort]
  constructor
  · rw [hnaive]
    exact dedup_le_naiveSum t
  · rw [hnaive, naiveSum_eq_sumSizes]
    unfold dir_size_considering_hardlinks
    rw [hlHelper_eq_foldIns]
    have hd := sumSizes_decomp (filesList t) []
      (fun e _ v hv => by simp [lookupA] at hv) hwf
    have h0 : keysA ([] : AList) = [] := rfl
    have hsv : sumValues ([] : AList) = 0 := rfl
    rw [h0, hsv] at hd
    constructor
    · intro heq
      have hp : penaltyAux [] (filesList t) = 0 := by omega
      exact dupZero_of_penaltyAux_zero _ [] hwf hp
    · intro hdz
      have hp : penaltyAux [] (filesList t) = 0 :=
        penaltyAux_zero_of_dupZero _ [] (fun e _ hm => by simp at hm) hdz
      omega

/-- Witness for the amended C4 theorem at the two-hardlink tree. -/
theorem c4_naive_ge_dedup_eq_iff_witness :
    naiveAborts c4dupTree = false ∧ wellFormedSizes (filesList c4dupTree) ∧
    (dir_size_considering_hardlinks c4dupTree ≤ dir_size_naive c4dupTree ∧
      (dir_size_naive c4dupTree = dir_size_considering_hardlinks c4dupTree ↔
        dupKeySizesZero (filesList c4dupTree))) :=
  ⟨by decide, by decide, c4_naive_ge_dedup_eq_iff c4dupTree (by decide) (by decide)⟩

/-! ## Bounded memoizing cache (`caching.rs`)

`Cache<K, V>` holds `RwLock<Option<FxHashMap<K, (V, u64)>>>` and an atomic
insertion counter. We model the map as an association list (insert
overwrites in place, appends fresh keys) and the two fields as a plain
state record; `insert` is a state transformer. -/

/-- Generic association-list insert with overwrite, modelling
`HashMap::insert`. -/
def insertKV {K V : Type} [DecidableEq K] (m : List (K × V)) (k : K) (v : V) :
    List (K × V) :=
  match m with
  | [] => [(k, v)]
  | kv :: rest => if kv.1 = k then (k, v) :: rest else kv :: insertKV rest k v

/-- Generic association-list lookup, modelling `HashMap::get`. -/
def lookupKV {K V : Type} [DecidableEq K] (m : List (K × V)) (k : K) : Option V :=
  match m with
  | [] => none
  | kv :: rest => if kv.1 = k then some kv.2 else lookupKV rest k

/-- Threshold above which `Cache::insert` runs its eviction pass. -/
def CACHE_SIZE_LIMIT : Nat := 500000

/-- State of a `Cache<K, V>`: the lazily allocated map (entries carry their
insertion timestamp) and the atomic timestamp counter. -/
structure CacheState (K V : Type) where
  store : Option (List (K × (V × Nat)))
  time_counter : Nat

/-- Eviction pass of `Cache::insert` (`caching.rs:30-36`): if the map size
strictly exceeds the limit, compute the mean timestamp (integer division of
the total by the length) and `retain` exactly the entries whose timestamp
is strictly below the mean. -/
def Cache.evict {K V : Type} (cache : List (K × (V × Nat))) :
    List (K × (V × Nat)) :=
  if cache.length > CACHE_SIZE_LIMIT then
    let total_age := (cache.map (fun kv => kv.2.2)).sum
    let avg_age := total_age / cache.length
    cache.filter (fun kv => kv.2.2 < avg_age)
  else cache

/-- Model of `Cache::insert` (`caching.rs:26-45`): on the some-branch run
the eviction pass, then insert the new key with the current counter value
(`fetch_add` returns the old counter and increments it); on the none-branch
allocate a fresh map holding the key with timestamp 0 and store counter 0. -/
def Cache.insert {K V : Type} [DecidableEq K] (s : CacheState K V)
    (key : K) (value : V) : CacheState K V :=
  match s.store with
  | some cache =>
      { store := some (insertKV (Cache.evict cache) key (value, s.time_counter)),
        time_counter := s.time_counter + 1 }
  | none =>
      { store := some [(key, (value, 0))], time_counter := 0 }

/-- Model of `Cache::lookup` (`caching.rs:20-24`). -/
def Cache.lookup {K V : Type} [DecidableEq K] (s : CacheState K V) (key : K) :
    Option V :=
  match s.store with
  | some cache => (lookupKV cache key).map (·.1)
  | none => none

/-- An over-threshold cache: 500001 distinct keys, all with timestamp 0. -/
def c2entries : List (Nat × (Unit × Nat)) :=
  (List.range 500001).map (fun i => (i, ((), 0)))

/-- Cache state holding `c2entries` with the counter past them. -/
def c2state : CacheState Nat Unit :=
  { store := some c2entries, time_counter := 500001 }

theorem c2entries_length : c2entries.length = 500001 := by
  simp [c2entries]

theorem c2entries_sum : (c2entries.map (fun kv => kv.2.2)).sum = 0 := by
  simp only [c2entries, List.map_map]
  have hfun : ((fun kv : Nat × (Unit × Nat) => kv.2.2) ∘ (fun i : Nat => (i, ((), 0))))
      = (fun _ : Nat => (0 : Nat)) := rfl
  rw [hfun]
  generalize List.range 500001 = l
  induction l with
  | nil => rfl
  | cons a l ih => simp [ih]

theorem c2evict_empty : Cache.evict c2entries = [] := by
  simp only [Cache.evict]
  rw [c2entries_length, c2entries_sum]
  rw [if_pos (show 500001 > CACHE_SIZE_LIMIT by norm_num [CACHE_SIZE_LIMIT])]
  rw [List.filter_eq_nil_iff]
  intro a _
  simp

/-- C2: the claim says `Cache::insert`, finding the map over the threshold,
evicts exactly the entries with timestamp strictly below the mean and
retains those at or above it. On a map of 500001 entries all carrying
timestamp 0 the mean is 0 and no timestamp is below it, so the claim
predicts that every entry survives; the code's `retain(|_, v| v.1 < avg)`
keeps the below-mean entries instead, so it evicts all 500001 entries (each
of which has timestamp 0 ≥ mean 0) and leaves only the newly inserted key. -/
theorem c2_insert_evicts_at_or_above_mean :
    (Cache.insert c2state 999999 ()).store = some [(999999, ((), 500001))] ∧
    Cache.lookup (Cache.insert c2state 999999 ()) 0 = none ∧
    (c2entries.map (fun kv => kv.2.2)).sum / c2entries.length ≤ 0 := by
  have hins : Cache.insert c2state 999999 ()
      = { store := some (insertKV (Cache.evict c2entries) 999999 ((), 500001)),
          time_counter := 500002 } := rfl
  have hins2 : Cache.insert c2state 999999 ()
      = { store := some [(999999, ((), 500001))], time_counter := 500002 } := by
    rw [hins, c2evict_empty]
    rfl
  refine ⟨by rw [hins2], by rw [hins2]; rfl, by rw [c2entries_sum]; simp⟩

/-! ## Profiles and the retention-marking algorithm (`profiles.rs`)

A `Generation` keeps its number, link path (abstracted to a numeric path
identifier: only path equality matters), age (a duration in abstract units)
and the mutable removal marker. A `Profile` keeps its ordered generation
list and the result of resolving its own live symlink (`fs::read_link` plus
join): `some pth` when resolution succeeds, `none` when it errors. -/

structure Generation where
  number : Nat
  path : Nat
  age : Nat
  marker : Bool
  deriving DecidableEq

structure Profile where
  generations : List Generation
  linkTarget : Option Nat
  deriving DecidableEq

/-- Retention options of a `ConfigPreset` (`config.rs`), ages as `Nat`. -/
structure ConfigPreset where
  keep_min : Option Nat
  keep_max : Option Nat
  keep_newer : Option Nat
  remove_older : Option Nat

def Generation.mark (g : Generation) : Generation := { g with marker := true }

def Generation.unmark (g : Generation) : Generation := { g with marker := false }

/-- Model of `iter_mut().rev().enumerate()` loops: apply `f` with the index
counted from `start`, walking the given (already reversed) list. -/
def mapIdxFrom (f : Nat → Generation → Generation) :
    Nat → List Generation → List Generation
  | _, [] => []
  | i, g :: gs => f i g :: mapIdxFrom f (i + 1) gs

/-- Model of `self.generations.last_mut()` followed by `unmark`. -/
def unmarkLast : List Generation → List Generation
  | [] => []
  | [g] => [g.unmark]
  | g :: gs => g :: unmarkLast gs

/-- Model of `iter_mut().find(pred)` followed by `unmark`: unmark the first
generation satisfying the predicate, leave the rest untouched. -/
def unmarkFirstWhere (pred : Generation → Bool) : List Generation → List Generation
  | [] => []
  | g :: gs => if pred g then g.unmark :: gs else g :: unmarkFirstWhere pred gs

/-- Step 1 of `apply_markers`: mark every generation whose age is at or
beyond the `remove_older` threshold, when configured. -/
def markOlderStep (o : Option Nat) (gens : List Generation) : List Generation :=
  match o with
  | some older_limit => gens.map (fun g => if g.age ≥ older_limit then g.mark else g)
  | none => gens

/-- Step 2: mark every generation whose `rev().enumerate()` index is at or
beyond `keep_max`, when configured. -/
def markMaxStep (o : Option Nat) (gens : List Generation) : List Generation :=
  match o with
  | some mx => (mapIdxFrom (fun i g => if i ≥ mx then g.mark else g) 0 gens.reverse).reverse
  | none => gens

/-- Step 3: unmark every generation strictly younger than `keep_newer`,
when configured. -/
def unmarkNewerStep (o : Option Nat) (gens : List Generation) : List Generation :=
  match o with
  | some newer => gens.map (fun g => if g.age < newer then g.unmark else g)
  | none => gens

/-- Step 4: unmark every generation whose `rev().enumerate()` index is
strictly below `keep_min`, when configured. -/
def unmarkMinStep (o : Option Nat) (gens : List Generation) : List Generation :=
  match o with
  | some mn => (mapIdxFrom (fun i g => if i < mn then g.unmark else g) 0 gens.reverse).reverse
  | none => gens

/-- Step 6: unmark the generation the live symlink resolves to (first match
by path); skipped when `read_link` failed or no generation matches. -/
def unmarkActiveStep (tgt : Option Nat) (gens : List Generation) : List Generation :=
  match tgt with
  | some pth => unmarkFirstWhere (fun g => g.path == pth) gens
  | none => gens

/-- Model of `Profile::apply_markers` (`profiles.rs:117-165`), the six
steps composed in source order: mark at-or-beyond `remove_older`; mark
reverse-enumerated index ≥ `keep_max`; unmark strictly below `keep_newer`;
unmark reverse-enumerated index < `keep_min`; unconditionally unmark the
last generation; unmark the active generation. -/
def Profile.apply_markers (p : Profile) (config : ConfigPreset) : Profile :=
  let gens :=
    unmarkActiveStep p.linkTarget
      (unmarkLast
        (unmarkMinStep config.keep_min
          (unmarkNewerStep config.keep_newer
            (markMaxStep config.keep_max
              (markOlderStep config.remove_older p.generations)))))
  { p with generations := gens }

/-- Numbers of the generations currently marked for removal. -/
def markedNumbers (p : Profile) : List Nat :=
  (p.generations.filter (·.marker)).map (·.number)

/-- The profile of the C5 scenario: generations 1..10, numbers doubling as
path identifiers, generations 1-7 aged 40 units (older than the 30-unit
threshold), 8-10 aged 10 units, live symlink resolving to generation 10. -/
def c5profile : Profile :=
  { generations :=
      [⟨1, 1, 40, false⟩, ⟨2, 2, 40, false⟩, ⟨3, 3, 40, false⟩,
       ⟨4, 4, 40, false⟩, ⟨5, 5, 40, false⟩, ⟨6, 6, 40, false⟩,
       ⟨7, 7, 40, false⟩, ⟨8, 8, 10, false⟩, ⟨9, 9, 10, false⟩,
       ⟨10, 10, 10, false⟩],
    linkTarget := some 10 }

/-- The C5 configuration: keep-min = 2, remove-older = 30, rest unset. -/
def c5config : ConfigPreset :=
  { keep_min := some 2, keep_max := none, keep_newer := none,
    remove_older := some 30 }

/-- C5 counterexample: the claimed marked set {1,2,3,4,5} is wrong for the
code; keep-min = 2 unmarks the two most recent generations (10 and 9,
already unmarked), not the two newest marked ones (7 and 6). -/
theorem c5_marked_set_not_one_to_five :
    markedNumbers (c5profile.apply_markers c5config) ≠ [1, 2, 3, 4, 5] := by
  decide

/-- C5 amended: on the 1..10 profile with keep-min = 2 and
remove-older = 30, the algorithm leaves exactly generations {1,...,7}
marked: 1-7 are marked by remove-older, keep-min unmarks the two most
recent generations 9 and 10 (which were never marked), and the final safety
steps unmark generation 10 again. -/
theorem c5_marked_set_is_one_to_seven :
    markedNumbers (c5profile.apply_markers c5config) = [1, 2, 3, 4, 5, 6, 7] := by
  decide

/-! ### The safety floor of `apply_markers` (C6)

Every step preserves the sequence of generation numbers (markers are the
only mutable state), the fifth step unmarks the final list entry, and the
sixth step never sets a marker. -/

/-- Generation numbers of a list, in order. -/
def numsOf (l : List Generation) : List Nat := l.map (·.number)

theorem numsOf_map_pres (f : Generation → Generation)
    (hf : ∀ g, (f g).number = g.number) (l : List Generation) :
    numsOf (l.map f) = numsOf l := by
  induction l with
  | nil => rfl
  | cons a l ih => simp only [numsOf, List.map_cons, hf] at ih ⊢; rw [ih]

theorem numsOf_mapIdxFrom (f : Nat → Generation → Generation)
    (hf : ∀ i g, (f i g).number = g.number) :
    ∀ (i : Nat) (l : List Generation), numsOf (mapIdxFrom f i l) = numsOf l
  | _, [] => rfl
  | i, g :: gs => by
      simp only [mapIdxFrom, numsOf, List.map_cons, hf]
      have := numsOf_mapIdxFrom f hf (i + 1) gs
      simp only [numsOf] at this
      rw [this]

theorem numsOf_reverse (l : List Generation) :
    numsOf l.reverse = (numsOf l).reverse := by
  simp [numsOf]

theorem number_mark (g : Generation) : g.mark.number = g.number := rfl

theorem number_unmark (g : Generation) : g.unmark.number = g.number := rfl

theorem marker_unmark (g : Generation) : g.unmark.marker = false := rfl

theorem path_unmark (g : Generation) : g.unmark.path = g.path := rfl

theorem numsOf_markOlderStep (o : Option Nat) (l : List Generation) :
    numsOf (markOlderStep o l) = numsOf l := by
  cases o with
  | none => rfl
  | some older_limit =>
      refine numsOf_map_pres _ (fun g => ?_) l
      by_cases h : g.age ≥ older_limit <;> simp [h, number_mark]

theorem numsOf_markMaxStep (o : Option Nat) (l : List Generation) :
    numsOf (markMaxStep o l) = numsOf l := by
  cases o with
  | none => rfl
  | some mx =>
      show numsOf ((mapIdxFrom _ 0 l.reverse).reverse) = numsOf l
      rw [numsOf_reverse, numsOf_mapIdxFrom _ (fun i g => by
        by_cases h : i ≥ mx <;> simp [h, number_mark]), numsOf_reverse,
        List.reverse_reverse]

theorem numsOf_unmarkNewerStep (o : Option Nat) (l : List Generation) :
    numsOf (unmarkNewerStep o l) = numsOf l := by
  cases o with
  | none => rfl
  | some newer =>
      refine numsOf_map_pres _ (fun g => ?_) l
      by_cases h : g.age < newer <;> simp [h, number_unmark]

theorem numsOf_unmarkMinStep (o : Option Nat) (l : List Generation) :
    numsOf (unmarkMinStep o l) = numsOf l := by
  cases o with
  | none => rfl
  | some mn =>
      show numsOf ((mapIdxFrom _ 0 l.reverse).reverse) = numsOf l
      rw [numsOf_reverse, numsOf_mapIdxFrom _ (fun i g => by
        by_cases h : i < mn <;> simp [h, number_unmark]), numsOf_reverse,
        List.reverse_reverse]

theorem numsOf_unmarkLast : ∀ l : List Generation, numsOf (unmarkLast l) = numsOf l
  | [] => rfl
  | [g] => by simp [unmarkLast, numsOf, number_unmark]
  | g :: g2 :: gs => by
      rw [show unmarkLast (g :: g2 :: gs) = g :: unmarkLast (g2 :: gs) from rfl]
      have := numsOf_unmarkLast (g2 :: gs)
      simp only [numsOf, List.map_cons] at this ⊢
      rw [this]

theorem numsOf_unmarkFirstWhere (pred : Generation → Bool) :
    ∀ l : List Generation, numsOf (unmarkFirstWhere pred l) = numsOf l
  | [] => rfl
  | g :: gs => by
      by_cases h : pred g
      · simp [unmarkFirstWhere, h, numsOf, number_unmark]
      · rw [show unmarkFirstWhere pred (g :: gs)
            = g :: unmarkFirstWhere pred gs by simp [unmarkFirstWhere, h]]
        have := numsOf_unmarkFirstWhere pred gs
        simp only [numsOf, List.map_cons] at this ⊢
        rw [this]

theorem numsOf_unmarkActiveStep (tgt : Option Nat) (l : List Generation) :
    numsOf (unmarkActiveStep tgt l) = numsOf l := by
  cases tgt with
  | none => rfl
  | some pth => exact numsOf_unmarkFirstWhere _ l

theorem getLast?_cons_of_ne_nil (a : Generation) (l : List Generation)
    (h : l ≠ []) : (a :: l).getLast? = l.getLast? := by
  cases l with
  | nil => exact absurd rfl h
  | cons b m => exact List.getLast?_cons_cons

theorem getLast?_unmarkLast (l : List Generation) (h : l ≠ []) :
    ∃ g0, l.getLast? = some g0 ∧ (unmarkLast l).getLast? = some g0.unmark := by
  match l with
  | [] => exact absurd rfl h
  | [g] => exact ⟨g, rfl, rfl⟩
  | g :: g2 :: gs =>
      obtain ⟨g0, h1, h2⟩ := getLast?_unmarkLast (g2 :: gs) (by simp)
      refine ⟨g0, ?_, ?_⟩
      · rw [List.getLast?_cons_cons, h1]
      · rw [show unmarkLast (g :: g2 :: gs) = g :: unmarkLast (g2 :: gs) from rfl]
        rw [getLast?_cons_of_ne_nil g _ (by
          intro hnil
          rw [hnil] at h2
          simp at h2), h2]

theorem getLast?_unmarkFirstWhere (pred : Generation → Bool) :
    ∀ l : List Generation,
      (unmarkFirstWhere pred l).getLast? = l.getLast? ∨
      ∃ g0, l.getLast? = some g0 ∧
        (unmarkFirstWhere pred l).getLast? = some g0.unmark
  | [] => Or.inl rfl
  | g :: gs => by
      by_cases h : pred g
      · rw [show unmarkFirstWhere pred (g :: gs)
            = g.unmark :: gs by simp [unmarkFirstWhere, h]]
        cases gs with
        | nil => exact Or.inr ⟨g, rfl, rfl⟩
        | cons g2 gs2 =>
            left
            rw [List.getLast?_cons_cons, List.getLast?_cons_cons]
      · rw [show unmarkFirstWhere pred (g :: gs)
            = g :: unmarkFirstWhere pred gs by simp [unmarkFirstWhere, h]]
        cases gs with
        | nil => exact Or.inl rfl
        | cons g2 gs2 =>
            have hne : unmarkFirstWhere pred (g2 :: gs2) ≠ [] := by
              by_cases h2 : pred g2 <;> simp [unmarkFirstWhere, h2]
            rcases getLast?_unmarkFirstWhere pred (g2 :: gs2) with hc | ⟨g0, hc1, hc2⟩
            · left
              rw [getLast?_cons_of_ne_nil g _ hne, hc, List.getLast?_cons_cons]
            · right
              exact ⟨g0, by rw [List.getLast?_cons_cons, hc1],
                by rw [getLast?_cons_of_ne_nil g _ hne, hc2]⟩

theorem marker_of_find?_unmarkFirstWhere (pred : Generation → Bool)
    (hpred : ∀ g, pred g.unmark = pred g) :
    ∀ (l : List Generation) (g : Generation),
      (unmarkFirstWhere pred l).find? pred = some g → g.marker = false
  | [], g, hfind => by simp [unmarkFirstWhere] at hfind
  | a :: gs, g, hfind => by
      by_cases h : pred a
      · rw [show unmarkFirstWhere pred (a :: gs)
            = a.unmark :: gs by simp [unmarkFirstWhere, h]] at hfind
        rw [List.find?_cons_of_pos _ (by rw [hpred]; exact h)] at hfind
        rw [← Option.some_inj.mp hfind]
        exact marker_unmark a
      · rw [show unmarkFirstWhere pred (a :: gs)
            = a :: unmarkFirstWhere pred gs by simp [unmarkFirstWhere, h]] at hfind
        rw [List.find?_cons_of_neg _ (by simpa using h)] at hfind
        exact marker_of_find?_unmarkFirstWhere pred hpred gs g hfind

theorem le_of_getLast?_sorted :
    ∀ (l : List Nat), List.Pairwise (· < ·) l →
      ∀ x ∈ l, ∀ y, l.getLast? = some y → x ≤ y
  | [], _, x, hx, _, _ => by simp at hx
  | [a], _, x, hx, y, hy => by
      simp at hx hy
      omega
  | a :: b :: m, hs, x, hx, y, hy => by
      rw [List.getLast?_cons_cons] at hy
      rcases List.mem_cons.mp hx with hxa | hxm
      · have hymem : y ∈ b :: m := by
          obtain ⟨hnn, hyl⟩ := List.mem_getLast?_eq_getLast (l := b :: m) (x := y)
            (by rw [Option.mem_def]; exact hy)
          rw [hyl]
          exact List.getLast_mem hnn
        have := (List.pairwise_cons.mp hs).1 y hymem
        omega
      · exact le_of_getLast?_sorted (b :: m) (List.pairwise_cons.mp hs).2 x hxm y hy

theorem getLast?_numsOf : ∀ l : List Generation,
    (numsOf l).getLast? = l.getLast?.map (·.number)
  | [] => rfl
  | [g] => rfl
  | g :: g2 :: gs => by
      rw [show numsOf (g :: g2 :: gs) = g.number :: numsOf (g2 :: gs) from rfl,
        show numsOf (g2 :: gs) = g2.number :: (numsOf gs) from rfl]
      rw [List.getLast?_cons_cons, List.getLast?_cons_cons]
      rw [show (g2.number :: numsOf gs : List Nat) = numsOf (g2 :: gs) from rfl]
      exact getLast?_numsOf (g2 :: gs)

/-- C6: for every profile with at least one generation (ordered by strictly
increasing number, as `Profile::new` guarantees by sorting) and every
retention configuration, `apply_markers` leaves the generation with the
highest number unmarked, and, whenever the live symlink resolves to a
generation, the (first) generation with that path is unmarked as well. -/
theorem c6_newest_and_active_never_marked (p : Profile) (cfg : ConfigPreset)
    (hne : p.generations ≠ [])
    (hsorted : p.generations.Pairwise (fun a b => a.number < b.number)) :
    (∃ glast, (p.apply_markers cfg).generations.getLast? = some glast ∧
      glast.marker = false ∧
      ∀ g ∈ (p.apply_markers cfg).generations, g.number ≤ glast.number) ∧
    (∀ pth g, p.linkTarget = some pth →
      (p.apply_markers cfg).generations.find? (fun g => g.path == pth) = some g →
      g.marker = false) := by
  have happ : (p.apply_markers cfg).generations
      = unmarkActiveStep p.linkTarget (unmarkLast
          (unmarkMinStep cfg.keep_min
            (unmarkNewerStep cfg.keep_newer
              (markMaxStep cfg.keep_max
                (markOlderStep cfg.remove_older p.generations))))) := rfl
  generalize hL : unmarkMinStep cfg.keep_min
      (unmarkNewerStep cfg.keep_newer
        (markMaxStep cfg.keep_max
          (markOlderStep cfg.remove_older p.generations))) = l4 at happ
  have hnums4 : numsOf l4 = numsOf p.generations := by
    rw [← hL, numsOf_unmarkMinStep, numsOf_unmarkNewerStep, numsOf_markMaxStep,
      numsOf_markOlderStep]
  have hlen4 : l4 ≠ [] := by
    intro hnil
    rw [hnil] at hnums4
    have hlen := congrArg List.length hnums4
    simp only [numsOf, List.length_map, List.length_nil] at hlen
    exact hne (List.eq_nil_of_length_eq_zero hlen.symm)
  obtain ⟨g0, hg0, hg0'⟩ := getLast?_unmarkLast l4 hlen4
  have hnums6 : numsOf (p.apply_markers cfg).generations = numsOf p.generations := by
    rw [happ, numsOf_unmarkActiveStep, numsOf_unmarkLast, hnums4]
  have hmax : ∀ glast, (p.apply_markers cfg).generations.getLast? = some glast →
      ∀ g ∈ (p.apply_markers cfg).generations, g.number ≤ glast.number := by
    intro glast hgl g hg
    have hsorted' : (numsOf p.generations).Pairwise (· < ·) :=
      List.Pairwise.map _ (fun a b h => h) hsorted
    have hx : g.number ∈ numsOf p.generations := by
      rw [← hnums6]
      exact List.mem_map_of_mem _ hg
    have hy : (numsOf p.generations).getLast? = some glast.number := by
      rw [← hnums6, getLast?_numsOf, hgl]
      rfl
    exact le_of_getLast?_sorted _ hsorted' _ hx _ hy
  constructor
  · cases htgt : p.linkTarget with
    | none =>
        have hfin : (p.apply_markers cfg).generations.getLast? = some g0.unmark := by
          rw [happ, htgt]
          exact hg0'
        exact ⟨g0.unmark, hfin, marker_unmark g0, hmax _ hfin⟩
    | some pth =>
        have happ' : (p.apply_markers cfg).generations
            = unmarkFirstWhere (fun g => g.path == pth) (unmarkLast l4) := by
          rw [happ, htgt]
          rfl
        rcases getLast?_unmarkFirstWhere (fun g => g.path == pth) (unmarkLast l4)
          with hc | ⟨gg, hc1, hc2⟩
        · have hfin : (p.apply_markers cfg).generations.getLast? = some g0.unmark := by
            rw [happ', hc]
            exact hg0'
          exact ⟨g0.unmark, hfin, marker_unmark g0, hmax _ hfin⟩
        · have hfin : (p.apply_markers cfg).generations.getLast? = some gg.unmark := by
            rw [happ']
            exact hc2
          exact ⟨gg.unmark, hfin, marker_unmark gg, hmax _ hfin⟩
  · intro pth g htgt hfind
    have happ' : (p.apply_markers cfg).generations
        = unmarkFirstWhere (fun g => g.path == pth) (unmarkLast l4) := by
      rw [happ, htgt]
      rfl
    rw [happ'] at hfind
    exact marker_of_find?_unmarkFirstWhere (fun g => g.path == pth)
      (fun g => rfl) _ g hfind

/-- Witness for the C6 theorem at the C5 profile and configuration. -/
theorem c6_newest_and_active_never_marked_witness :
    c5profile.generations ≠ [] ∧
    c5profile.generations.Pairwise (fun a b => a.number < b.number) ∧
    ((∃ glast, (c5profile.apply_markers c5config).generations.getLast? = some glast ∧
        glast.marker = false ∧
        ∀ g ∈ (c5profile.apply_markers c5config).generations, g.number ≤ glast.number) ∧
      (∀ pth g, c5profile.linkTarget = some pth →
        (c5profile.apply_markers c5config).generations.find? (fun g => g.path == pth)
          = some g → g.marker = false)) :=
  ⟨by decide, by decide,
    c6_newest_and_active_never_marked c5profile c5config (by decide) (by decide)⟩

/-! ## Ordered channel (`ordered_channel.rs`)

`OrderedChannel<T>` guards a `HashMap<usize, T>` with a mutex and condition
variable. We model the map as an association list; `put` inserts, `get`
removes and returns the entry for an index, with `none` standing for the
blocked case (the index was never deposited, so in a closed world `get`
would wait forever). The iterator's state is the pair of the next index and
remaining yield count. -/

/-- Model of `HashMap::remove`: the removed value (if the key is present)
and the map without that entry. -/
def removeKV {K V : Type} [DecidableEq K] (m : List (K × V)) (k : K) :
    Option V × List (K × V) :=
  match m with
  | [] => (none, [])
  | kv :: rest =>
      if kv.1 = k then (some kv.2, rest)
      else
        let r := removeKV rest k
        (r.1, kv :: r.2)

/-- Model of `OrderedChannel::put` (`ordered_channel.rs:25-29`). -/
def OrderedChannel.put {T : Type} (m : List (Nat × T)) (i : Nat) (v : T) :
    List (Nat × T) :=
  insertKV m i v

/-- Model of `OrderedChannel::get` (`ordered_channel.rs:31-39`): loop until
`remove(&i)` yields the deposited value, then return it; `none` models the
case where the index is absent and no producer remains to deposit it. -/
def OrderedChannel.get {T : Type} (m : List (Nat × T)) (i : Nat) :
    Option (T × List (Nat × T)) :=
  match removeKV m i with
  | (some v, m') => some (v, m')
  | (none, _) => none

/-- Model of driving `OrderedChannelIterator::next` until exhaustion
(`ordered_channel.rs:46-57`): from index `i` with `k` yields remaining,
collect `get i`, `get (i+1)`, ... and the final channel state. -/
def OrderedChannel.drain {T : Type} :
    List (Nat × T) → Nat → Nat → Option (List T × List (Nat × T))
  | m, _, 0 => some ([], m)
  | m, i, k + 1 =>
      match OrderedChannel.get m i with
      | none => none
      | some (v, m') =>
          match OrderedChannel.drain m' (i + 1) k with
          | none => none
          | some (vs, mf) => some (v :: vs, mf)

/-- Model of `OrderedChannel::iter(total)` consumed to completion. -/
def OrderedChannel.iter {T : Type} (m : List (Nat × T)) (total : Nat) :
    Option (List T × List (Nat × T)) :=
  OrderedChannel.drain m 0 total

theorem removeKV_fst {K V : Type} [DecidableEq K] (m : List (K × V)) (k : K) :
    (removeKV m k).1 = lookupKV m k := by
  induction m with
  | nil => rfl
  | cons kv rest ih =>
      by_cases h : kv.1 = k <;> simp [removeKV, lookupKV, h, ih]

theorem removeKV_map_fst {K V : Type} [DecidableEq K] (m : List (K × V)) (k : K) :
    (removeKV m k).2.map Prod.fst = (m.map Prod.fst).erase k := by
  induction m with
  | nil => rfl
  | cons kv rest ih =>
      by_cases h : kv.1 = k
      · simp [removeKV, h, List.erase_cons_head]
      · simp only [removeKV, if_neg h, List.map_cons]
        rw [List.erase_cons_tail, ih]
        simp [h]

theorem lookupKV_removeKV_ne {K V : Type} [DecidableEq K] (m : List (K × V))
    (k j : K) (hne : j ≠ k) : lookupKV (removeKV m k).2 j = lookupKV m j := by
  induction m with
  | nil => rfl
  | cons kv rest ih =>
      have hkj : ¬ (k = j) := fun hh => hne hh.symm
      by_cases h : kv.1 = k
      · have h2 : ¬ kv.1 = j := by rw [h]; exact hkj
        simp [removeKV, lookupKV, h, h2, hkj]
      · by_cases hj : kv.1 = j <;> simp [removeKV, lookupKV, h, hj, hne, hkj, ih]

theorem lookupKV_isSome_of_mem {K V : Type} [DecidableEq K] (m : List (K × V))
    (k : K) (h : k ∈ m.map Prod.fst) : ∃ v, lookupKV m k = some v := by
  induction m with
  | nil => simp at h
  | cons kv rest ih =>
      by_cases hk : kv.1 = k
      · exact ⟨kv.2, by simp [lookupKV, hk]⟩
      · have hmem : k ∈ rest.map Prod.fst := by
          rw [List.map_cons, List.mem_cons] at h
          rcases h with hh | hh
          · exact absurd hh.symm hk
          · exact hh
        obtain ⟨v, hv⟩ := ih hmem
        exact ⟨v, by simp [lookupKV, hk, hv]⟩

theorem drain_spec {T : Type} :
    ∀ (k i : Nat) (m : List (Nat × T)),
      (m.map Prod.fst).Perm (List.range' i k) →
      OrderedChannel.drain m i k
        = some ((List.range' i k).filterMap (fun j => lookupKV m j), []) := by
  intro k
  induction k with
  | zero =>
      intro i m hperm
      have hm : m = [] := by
        have := hperm.eq_nil
        exact List.map_eq_nil_iff.mp this
      rw [hm]
      rfl
  | succ k ih =>
      intro i m hperm
      have hrange : List.range' i (k + 1) = i :: List.range' (i + 1) k := rfl
      have hi : i ∈ m.map Prod.fst := hperm.mem_iff.mpr (by rw [hrange]; simp)
      obtain ⟨v, hv⟩ := lookupKV_isSome_of_mem m i hi
      have hrem1 : (removeKV m i).1 = some v := by rw [removeKV_fst]; exact hv
      have hpair : removeKV m i = (some v, (removeKV m i).2) := by
        rw [← hrem1]
      have hget : OrderedChannel.get m i = some (v, (removeKV m i).2) := by
        unfold OrderedChannel.get
        rw [hpair]
      have hperm' : ((removeKV m i).2.map Prod.fst).Perm (List.range' (i + 1) k) := by
        rw [removeKV_map_fst]
        have herase := hperm.erase i
        rw [hrange, List.erase_cons_head] at herase
        exact herase
      have hih := ih (i + 1) (removeKV m i).2 hperm'
      have hlookups :
          (List.range' (i + 1) k).filterMap (fun j => lookupKV (removeKV m i).2 j)
            = (List.range' (i + 1) k).filterMap (fun j => lookupKV m j) := by
        apply List.filterMap_congr
        intro j hj
        apply lookupKV_removeKV_ne
        have := List.mem_range'_1.mp hj
        omega
      simp only [OrderedChannel.drain, hget, hih, hlookups, hrange,
        List.filterMap_cons, hv]

theorem insertKV_not_mem {K V : Type} [DecidableEq K] (m : List (K × V))
    (k : K) (v : V) (h : k ∉ m.map Prod.fst) : insertKV m k v = m ++ [(k, v)] := by
  induction m with
  | nil => rfl
  | cons kv rest ih =>
      have hk : ¬ kv.1 = k := by
        intro hh
        exact h (by simp [hh])
      have h' : k ∉ rest.map Prod.fst := by
        intro hm
        exact h (by simp [hm])
      simp [insertKV, hk, ih h']

theorem foldPut_append {T : Type} :
    ∀ (puts : List (Nat × T)) (m : List (Nat × T)),
      (∀ p ∈ puts, p.1 ∉ m.map Prod.fst) → (puts.map Prod.fst).Nodup →
      puts.foldl (fun mm p => OrderedChannel.put mm p.1 p.2) m = m ++ puts
  | [], m, _, _ => by simp
  | p :: rest, m, hdisj, hnd => by
      simp only [List.foldl_cons]
      rw [show OrderedChannel.put m p.1 p.2 = m ++ [(p.1, p.2)] from
        insertKV_not_mem m p.1 p.2 (hdisj p (by simp))]
      rw [foldPut_append rest (m ++ [(p.1, p.2)]) ?_ ?_]
      · simp
      · intro q hq
        rw [List.map_append, List.mem_append]
        rintro (hins | hins)
        · exact hdisj q (by simp [hq]) hins
        · have hq1 : q.1 = p.1 := by simpa using hins
          have hp1 : p.1 ∉ rest.map Prod.fst := by
            rw [List.map_cons, List.nodup_cons] at hnd
            exact hnd.1
          exact hp1 (hq1 ▸ List.mem_map_of_mem _ hq)
      · rw [List.map_cons, List.nodup_cons] at hnd
        exact hnd.2

theorem lookupKV_eq_find? {T : Type} (m : List (Nat × T)) (k : Nat) :
    lookupKV m k = (m.find? (fun p => p.1 == k)).map (·.2) := by
  induction m with
  | nil => rfl
  | cons kv rest ih =>
      by_cases h : kv.1 = k
      · rw [List.find?_cons_of_pos _ (by simpa using h)]
        simp [lookupKV, h]
      · rw [List.find?_cons_of_neg _ (by simpa using h)]
        simp [lookupKV, h, ih]

theorem filterMap_length_of_isSome {α β : Type} (f : α → Option β) :
    ∀ l : List α, (∀ a ∈ l, (f a).isSome) → (l.filterMap f).length = l.length
  | [], _ => rfl
  | a :: l, h => by
      obtain ⟨b, hb⟩ := Option.isSome_iff_exists.mp (h a (by simp))
      rw [List.filterMap_cons, hb]
      simp only [List.length_cons]
      rw [filterMap_length_of_isSome f l (fun x hx => h x (by simp [hx]))]

/-- C8: when the producers between them deposit exactly one value at every
index 0..n-1 (in any completion order: `puts` lists the `put` calls in the
order they complete), draining `iter(n)` succeeds, yields exactly n values,
the k-th yielded value being the one deposited at index k, removes every
consumed entry (the final channel state is empty), and then terminates. -/
theorem c8_iter_yields_in_index_order {T : Type} (n : Nat) (puts : List (Nat × T))
    (hperm : (puts.map Prod.fst).Perm (List.range n)) :
    OrderedChannel.iter
        (puts.foldl (fun m p => OrderedChannel.put m p.1 p.2) []) n
      = some ((List.range n).filterMap
          (fun k => (puts.find? (fun p => p.1 == k)).map (·.2)), []) ∧
    ((List.range n).filterMap
        (fun k => (puts.find? (fun p => p.1 == k)).map (·.2))).length = n := by
  have hnd : (puts.map Prod.fst).Nodup := hperm.symm.nodup (List.nodup_range n)
  have hfold : puts.foldl (fun m p => OrderedChannel.put m p.1 p.2) [] = puts := by
    have := foldPut_append puts [] (by simp) hnd
    simpa using this
  have hr : List.range n = List.range' 0 n := List.range_eq_range' n
  constructor
  · unfold OrderedChannel.iter
    rw [hfold, hr]
    rw [drain_spec n 0 puts (by rw [← hr]; exact hperm)]
    have hfun : (fun j => lookupKV puts j)
        = (fun k => (puts.find? (fun p => p.1 == k)).map (·.2)) :=
      funext (lookupKV_eq_find? puts)
    rw [hfun]
  · have hsome : ∀ k ∈ List.range n,
        ((fun k => (puts.find? (fun p => p.1 == k)).map (·.2)) k).isSome := by
      intro k hk
      have hkm : k ∈ puts.map Prod.fst := hperm.mem_iff.mpr hk
      obtain ⟨v, hv⟩ := lookupKV_isSome_of_mem puts k hkm
      rw [lookupKV_eq_find?] at hv
      rcases h2 : puts.find? (fun p => p.1 == k) with _ | q
      · rw [h2] at hv
        simp at hv
      · simp [h2]
    rw [filterMap_length_of_isSome _ (List.range n) hsome, List.length_range]

/-- Producers completing in the order 2, 0, 1 with values 30, 10, 20. -/
def c8puts : List (Nat × Nat) := [(2, 30), (0, 10), (1, 20)]

/-- Witness for the C8 theorem: out-of-order producers, three yields in
index order. -/
theorem c8_iter_yields_in_index_order_witness :
    (c8puts.map Prod.fst).Perm (List.range 3) ∧
    (OrderedChannel.iter
        (c8puts.foldl (fun m p => OrderedChannel.put m p.1 p.2) []) 3
      = some ((List.range 3).filterMap
          (fun k => (c8puts.find? (fun p => p.1 == k)).map (·.2)), []) ∧
     ((List.range 3).filterMap
        (fun k => (c8puts.find? (fun p => p.1 == k)).map (·.2))).length = 3) :=
  ⟨by decide, c8_iter_yields_in_index_order 3 c8puts (by decide)⟩

/-! ## Store path validation (`store.rs` / `nix/store.rs`)

A filesystem path is modelled as an absoluteness flag plus its list of
normal components, each component a list of characters (the model covers
names that decode as UTF-8; a non-decodable final component, for which the
code returns `false` via the `to_str` failure, has no counterpart here and
is noted where relevant). `str::len` counts UTF-8 bytes, modelled by
`charUtf8Size` following `char::len_utf8`. -/

structure RPath where
  absolute : Bool
  components : List (List Char)

/-- Components of the store root `/nix/store`. -/
def NIX_STORE_COMPONENTS : List (List Char) := [['n', 'i', 'x'], ['s', 't', 'o', 'r', 'e']]

/-- Model of `Path::file_name` for a path of normal components. -/
def RPath.file_name (p : RPath) : Option (List Char) := p.components.getLast?

/-- Model of `Path::starts_with(NIX_STORE)`: component-wise prefix,
including absoluteness. -/
def RPath.starts_with_store (p : RPath) : Bool :=
  p.absolute && NIX_STORE_COMPONENTS.isPrefixOf p.components

/-- Rust `char::len_utf8`: number of UTF-8 bytes of one scalar value,
by code point (127 = 0x7F, 2047 = 0x7FF, 65535 = 0xFFFF). -/
def charUtf8Size (c : Char) : Nat :=
  if c.toNat ≤ 127 then 1
  else if c.toNat ≤ 2047 then 2
  else if c.toNat ≤ 65535 then 3
  else 4

/-- Rust `str::len`: UTF-8 byte length. -/
def strLen (s : List Char) : Nat := (s.map charUtf8Size).sum

/-- Rust `char::is_ascii_alphanumeric`, by code point: 48-57 is `0`-`9`,
65-90 is `A`-`Z`, 97-122 is `a`-`z`. -/
def rust_is_ascii_alphanumeric (c : Char) : Bool :=
  (48 ≤ c.toNat && c.toNat ≤ 57) || (65 ≤ c.toNat && c.toNat ≤ 90)
    || (97 ≤ c.toNat && c.toNat ≤ 122)

/-- Rust `char::is_lowercase` restricted to the ASCII-alphanumeric
characters the conjunction in `is_valid_path` applies it to: the Unicode
Lowercase property intersected with ASCII alphanumerics is exactly
`a`-`z` (code points 97-122). -/
def rust_is_lowercase (c : Char) : Bool := 97 ≤ c.toNat && c.toNat ≤ 122

/-- Rust `char::is_numeric` restricted likewise: the Unicode Number
property intersected with ASCII alphanumerics is exactly `0`-`9`
(code points 48-57). -/
def rust_is_numeric (c : Char) : Bool := 48 ≤ c.toNat && c.toNat ≤ 57

/-- The per-character test of `is_valid_path`:
`c.is_ascii_alphanumeric() && (c.is_lowercase() || c.is_numeric())`. -/
def hashChar (c : Char) : Bool :=
  rust_is_ascii_alphanumeric c && (rust_is_lowercase c || rust_is_numeric c)

/-- Model of `Store::is_valid_path` (`store.rs:43-56`, identically
`nix/store.rs:67-80`): the final component must exist (and decode, which is
implicit in the model), the path must lie under the store root, the final
component must be longer than 32 bytes, and its first 32 characters must
each pass `hashChar`. -/
def Store.is_valid_path (p : RPath) : Bool :=
  match p.file_name with
  | none => false
  | some file_name =>
      let is_in_store := p.starts_with_store
      let has_sufficient_length := strLen file_name > 32
      let starts_with_hash := (file_name.take 32).all hashChar
      is_in_store && has_sufficient_length && starts_with_hash

/-- Model of `StorePath::new` (`store.rs:74-80`, `nix/store.rs:124-130`). -/
def StorePath.new (p : RPath) : Except String RPath :=
  if !(Store.is_valid_path p) then
    Except.error "is not a valid nix store path"
  else
    Except.ok p

theorem hashChar_iff (c : Char) :
    hashChar c = true ↔
      (97 ≤ c.toNat ∧ c.toNat ≤ 122) ∨ (48 ≤ c.toNat ∧ c.toNat ≤ 57) := by
  simp only [hashChar, rust_is_ascii_alphanumeric, rust_is_lowercase,
    rust_is_numeric, Bool.and_eq_true, Bool.or_eq_true, decide_eq_true_eq]
  tauto

theorem charUtf8Size_pos (c : Char) : 1 ≤ charUtf8Size c := by
  unfold charUtf8Size
  split_ifs <;> norm_num

theorem charUtf8Size_eq_one_of_hashChar (c : Char) (h : hashChar c = true) :
    charUtf8Size c = 1 := by
  have hz : c.toNat ≤ 127 := by
    rcases (hashChar_iff c).mp h with ⟨_, h2⟩ | ⟨_, h2⟩ <;> omega
  unfold charUtf8Size
  rw [if_pos hz]

theorem strLen_ge_length (s : List Char) : s.length ≤ strLen s := by
  induction s with
  | nil => simp [strLen]
  | cons c s ih =>
      simp only [strLen, List.map_cons, List.sum_cons, List.length_cons] at ih ⊢
      have := charUtf8Size_pos c
      omega

theorem strLen_eq_length_of_all (s : List Char)
    (h : ∀ c ∈ s, hashChar c = true) : strLen s = s.length := by
  induction s with
  | nil => simp [strLen]
  | cons c s ih =>
      simp only [strLen, List.map_cons, List.sum_cons, List.length_cons] at ih ⊢
      rw [charUtf8Size_eq_one_of_hashChar c (h c (by simp)),
        ih (fun c hc => h c (by simp [hc]))]
      omega

theorem strLen_gt_iff (name : List Char)
    (h : ∀ c ∈ name.take 32, hashChar c = true) :
    strLen name > 32 ↔ name.length > 32 := by
  constructor
  · intro hgt
    by_contra hle
    push_neg at hle
    have htake : name.take 32 = name := List.take_of_length_le hle
    rw [htake] at h
    rw [strLen_eq_length_of_all name h] at hgt
    omega
  · intro hlen
    have := strLen_ge_length name
    omega

/-- C9: `is_valid_path` is a pure predicate holding exactly when the path
is absolute under `/nix/store` its final component exists with more than 32
characters, the first 32 of which are ASCII lowercase letters or digits;
and `StorePath::new` succeeds exactly on such paths. (The byte-length test
`file_name.len() > 32` of the source coincides with the claim's
character-count reading because the first 32 characters are forced to be
one-byte ASCII; a final component that does not decode as UTF-8 — rejected
by the code — is outside this model of decodable names.) -/
theorem c9_is_valid_path_characterization (p : RPath) :
    (Store.is_valid_path p = true ↔
      (p.absolute = true ∧ p.components.take 2 = NIX_STORE_COMPONENTS ∧
        ∃ name, p.file_name = some name ∧ 32 < name.length ∧
          ∀ c ∈ name.take 32,
            (97 ≤ c.toNat ∧ c.toNat ≤ 122) ∨ (48 ≤ c.toNat ∧ c.toNat ≤ 57))) ∧
    ((∃ q, StorePath.new p = Except.ok q) ↔ Store.is_valid_path p = true) := by
  constructor
  · cases hfn : p.file_name with
    | none =>
        simp only [Store.is_valid_path, hfn]
        constructor
        · intro hfalse
          exact absurd hfalse (by simp)
        · rintro ⟨-, -, name, hname, -⟩
          simp at hname
    | some name =>
        simp only [Store.is_valid_path, hfn]
        rw [show ((RPath.starts_with_store p
              && decide (strLen name > 32)
              && (name.take 32).all hashChar) = true)
            ↔ (RPath.starts_with_store p = true ∧ strLen name > 32 ∧
                (name.take 32).all hashChar = true) by
          simp [Bool.and_eq_true, and_assoc]]
        have hpref : RPath.starts_with_store p = true
            ↔ (p.absolute = true ∧ p.components.take 2 = NIX_STORE_COMPONENTS) := by
          simp only [RPath.starts_with_store, Bool.and_eq_true]
          constructor
          · rintro ⟨ha, hb⟩
            refine ⟨ha, ?_⟩
            have hp : NIX_STORE_COMPONENTS <+: p.components :=
              List.isPrefixOf_iff_prefix.mp hb
            obtain ⟨t, ht⟩ := hp
            rw [← ht]
            rfl
          · rintro ⟨ha, hb⟩
            refine ⟨ha, ?_⟩
            rw [List.isPrefixOf_iff_prefix, ← hb]
            exact List.take_prefix 2 p.components
        have hall : (name.take 32).all hashChar = true
            ↔ ∀ c ∈ name.take 32, hashChar c = true := List.all_eq_true
        constructor
        · rintro ⟨hs, hlen, hhash⟩
          have hchars := hall.mp hhash
          refine ⟨(hpref.mp hs).1, (hpref.mp hs).2, name, rfl, ?_, ?_⟩
          · exact (strLen_gt_iff name hchars).mp hlen
          · intro c hc
            exact (hashChar_iff c).mp (hchars c hc)
        · rintro ⟨ha, hb, name', hname', hlen, hchars⟩
          have hnn : name' = name := (Option.some_inj.mp hname').symm
          subst hnn
          have hchars' : ∀ c ∈ name'.take 32, hashChar c = true :=
            fun c hc => (hashChar_iff c).mpr (hchars c hc)
          exact ⟨hpref.mpr ⟨ha, hb⟩, (strLen_gt_iff name' hchars').mpr hlen,
            hall.mpr hchars'⟩
  · unfold StorePath.new
    by_cases hv : Store.is_valid_path p
    · simp [hv]
    · simp [hv]

/-- Witness-style evaluation of C9 on two concrete paths: a valid store
path (33-character hash-prefixed name under the store root) is accepted and
a path outside the store root is rejected. For the main theorem's
hypothesis-free statement no witness is required; this closed corollary
applies it at a concrete path. -/
theorem c9_concrete_paths :
    Store.is_valid_path
      ⟨true, [['n', 'i', 'x'], ['s', 't', 'o', 'r', 'e'],
        List.replicate 33 'a']⟩ = true ∧
    Store.is_valid_path
      ⟨true, [['e', 't', 'c'], List.replicate 33 'a']⟩ = false := by
  decide

/-! ## Closure resolution (`nix/store.rs`)

The external `nix-store --query --requisites` collaborator is modelled as a
function from the argument path list to a process outcome: a spawn error,
or an exit with success flag, optional exit code, and standard output
(`none` models output that does not decode as UTF-8; `some` carries the
decoded lines already split into paths, since `PathBuf::from_str` is
infallible). The `CLOSURE_CACHE` is modelled as transparent: per the spec a
cache miss is always recoverable by recomputation. `full_closure` collects
into a `HashSet`; we model the collected closure as the concatenation of
the per-chunk results, which has the same members. -/

inductive RunResult where
  | spawnErr (msg : String)
  | exited (success : Bool) (code : Option Int) (stdout : Option (List RPath))

/-- Error text of a non-zero exit, as formatted by the source. -/
def exitMsg (code : Option Int) : String :=
  match code with
  | some c => "`nix-store` failed (exit code " ++ toString c ++ ")"
  | none => "`nix-store` failed"

/-- Did the collaborator invocation fail (spawn failure, non-zero exit, or
non-UTF-8 output)? -/
def runFails (r : RunResult) : Bool :=
  match r with
  | .spawnErr _ => true
  | .exited success _ stdout => !success || stdout.isNone

/-- Model of `StorePath::closure_helper` (`nix/store.rs:175-213`): spawn
errors, non-zero exits and undecodable output become `Err`; otherwise the
decoded lines are returned as the closure. -/
def closure_helper (run : List RPath → RunResult) (paths : List RPath) :
    Except String (List RPath) :=
  match run paths with
  | .spawnErr e => .error e
  | .exited success code stdout =>
      if !success then .error (exitMsg code)
      else
        match stdout with
        | none => .error "invalid utf-8 in nix-store output"
        | some ls => .ok ls

/-- Model of `StorePath::closure` (`nix/store.rs:154-156`). -/
def StorePath.closure (run : List RPath → RunResult) (p : RPath) :
    Except String (List RPath) :=
  closure_helper run [p]

/-- Chunk length used by `full_closure`. -/
def CLOSURE_LOOKUP_CHUNK_SIZE : Nat := 1024

/-- Model of `paths.chunks(CLOSURE_LOOKUP_CHUNK_SIZE)`. -/
def chunksOf : List RPath → List (List RPath)
  | [] => []
  | x :: rest =>
      (x :: rest).take CLOSURE_LOOKUP_CHUNK_SIZE
        :: chunksOf ((x :: rest).drop CLOSURE_LOOKUP_CHUNK_SIZE)
termination_by l => l.length
decreasing_by
  simp only [List.length_drop, List.length_cons]
  norm_num [CLOSURE_LOOKUP_CHUNK_SIZE]

/-- Model of `StorePath::full_closure` (`nix/store.rs:215-221`): resolve
each 1024-chunk and union the results; the `flat_map` over `Result` yields
nothing for a failed chunk, and the return type carries no error at all. -/
def StorePath.full_closure (run : List RPath → RunResult)
    (paths : List RPath) : List RPath :=
  ((chunksOf paths).map (fun c =>
    match closure_helper run c with
    | .ok l => l
    | .error _ => [])).flatten

/-- The closure set that `StorePath::closure_size` (`nix/store.rs:158-165`)
goes on to measure: `self.closure().unwrap_or_default()`, i.e. the resolved
closure on success and the empty set on failure. -/
def closureSizeMeasuredSet (run : List RPath → RunResult) (p : RPath) :
    List RPath :=
  match StorePath.closure run p with
  | .ok l => l
  | .error _ => []

/-- The collaborator outcome used in the C3 counterexample: exit code 1. -/
def failRunC3 : List RPath → RunResult :=
  fun _ => RunResult.exited false (some 1) none

/-- A store path used in the C3 counterexample. -/
def c3path : RPath :=
  ⟨true, [['n', 'i', 'x'], ['s', 't', 'o', 'r', 'e'], List.replicate 33 'a']⟩

theorem chunksOf_singleton : chunksOf [c3path] = [[c3path]] := by
  rw [chunksOf]
  norm_num [CLOSURE_LOOKUP_CHUNK_SIZE, chunksOf]

/-- C3 counterexample: with a collaborator that exits non-zero,
`closure_helper` (and hence `closure`) does report the failure, but
`full_closure` returns the empty set with no error — its return type cannot
even carry one — and the set measured by `closure_size` is the empty
closure substituted by `unwrap_or_default()`. -/
theorem c3_counterexample :
    closure_helper failRunC3 [c3path] = Except.error (exitMsg (some 1)) ∧
    StorePath.full_closure failRunC3 [c3path] = [] ∧
    closureSizeMeasuredSet failRunC3 c3path = [] := by
  refine ⟨rfl, ?_, rfl⟩
  rw [StorePath.full_closure, chunksOf_singleton]
  rfl

/-- C3 amended: `closure_helper` — and with it `StorePath::closure` and the
resolution step inside `closure_size` — returns `Err` exactly when the
collaborator fails (spawn error, non-zero exit, undecodable output). But
`full_closure` does not propagate: each failed chunk contributes nothing
(when every chunk fails the result is the empty set), and `closure_size`
measures the empty closure substituted for a failed resolution. -/
theorem c3_helper_propagates_but_batch_swallows
    (run : List RPath → RunResult) (paths : List RPath) (p : RPath) :
    (runFails (run paths) = true →
      ∃ e, closure_helper run paths = Except.error e) ∧
    (runFails (run paths) = false →
      ∃ l, closure_helper run paths = Except.ok l) ∧
    ((∀ c ∈ chunksOf paths, runFails (run c) = true) →
      StorePath.full_closure run paths = []) ∧
    (runFails (run [p]) = true → closureSizeMeasuredSet run p = []) := by
  have hprop : ∀ ps : List RPath, runFails (run ps) = true →
      ∃ e, closure_helper run ps = Except.error e := by
    intro ps h
    cases hr : run ps with
    | spawnErr e => exact ⟨e, by simp [closure_helper, hr]⟩
    | exited success code stdout =>
        rw [hr] at h
        cases success with
        | false => exact ⟨exitMsg code, by simp [closure_helper, hr]⟩
        | true =>
            cases stdout with
            | none =>
                exact ⟨"invalid utf-8 in nix-store output",
                  by simp [closure_helper, hr]⟩
            | some ls => simp [runFails] at h
  refine ⟨hprop paths, ?_, ?_, ?_⟩
  · intro h
    cases hr : run paths with
    | spawnErr e => simp [runFails, hr] at h
    | exited success code stdout =>
        rw [hr] at h
        cases success with
        | false => simp [runFails] at h
        | true =>
            cases stdout with
            | none => simp [runFails] at h
            | some ls => exact ⟨ls, by simp [closure_helper, hr]⟩
  · intro hall
    rw [StorePath.full_closure]
    rw [List.flatten_eq_nil_iff]
    intro x hx
    rw [List.mem_map] at hx
    obtain ⟨c, hc, hcx⟩ := hx
    obtain ⟨e, he⟩ := hprop c (hall c hc)
    rw [← hcx, he]
  · intro h
    obtain ⟨e, he⟩ := hprop [p] h
    rw [closureSizeMeasuredSet, StorePath.closure, he]

/-- Witness for the amended C3 theorem at the failing collaborator. -/
theorem c3_helper_propagates_but_batch_swallows_witness :
    runFails (failRunC3 [c3path]) = true ∧
    (∀ c ∈ chunksOf [c3path], runFails (failRunC3 c) = true) ∧
    ((runFails (failRunC3 [c3path]) = true →
        ∃ e, closure_helper failRunC3 [c3path] = Except.error e) ∧
      (runFails (failRunC3 [c3path]) = false →
        ∃ l, closure_helper failRunC3 [c3path] = Except.ok l) ∧
      ((∀ c ∈ chunksOf [c3path], runFails (failRunC3 c) = true) →
        StorePath.full_closure failRunC3 [c3path] = []) ∧
      (runFails (failRunC3 [c3path]) = true →
        closureSizeMeasuredSet failRunC3 c3path = [])) :=
  ⟨rfl, fun _ _ => rfl,
    c3_helper_propagates_but_batch_swallows failRunC3 [c3path] c3path⟩

/-! ## GC root filtering (`roots.rs:128-154`, identically `nix/roots.rs:202-228`)

A `GCRoot` holds its link location, a fallible age and a fallible store
path resolution. The classification predicates `is_profile`/`is_current`
are pure functions of the link path; the model records their values as
fields, which is all `filter_roots` consumes. Ages are `Except`: `Ok`
carries the duration, `Err` the metadata failure message. -/

structure GCRoot where
  is_profile : Bool
  is_current : Bool
  store_path : Except String Nat
  age : Except String Nat

/-- Model of `GCRoot::is_accessible`: the store path resolved. -/
def GCRoot.is_accessible (r : GCRoot) : Bool :=
  match r.store_path with
  | .ok _ => true
  | .error _ => false

/-- Model of `GCRoot::filter_roots`: retain non-profile roots unless
included, retain non-current roots unless included, retain accessible roots
unless inaccessible ones are included; then, for each configured age bound,
retain by comparing `Ok` ages and retain every `Err` age unconditionally. -/
def GCRoot.filter_roots (roots : List GCRoot)
    (include_profiles include_current include_inaccessible : Bool)
    (older_bound newer_bound : Option Nat) : List GCRoot :=
  let roots := if !include_profiles then roots.filter (fun r => !r.is_profile) else roots
  let roots := if !include_current then roots.filter (fun r => !r.is_current) else roots
  let roots := if !include_inaccessible then roots.filter (fun r => r.is_accessible) else roots
  let roots := match older_bound with
    | some ob => roots.filter (fun r =>
        match r.age with
        | .ok a => decide (a > ob)
        | .error _ => true)
    | none => roots
  let roots := match newer_bound with
    | some nb => roots.filter (fun r =>
        match r.age with
        | .ok a => decide (a ≤ nb)
        | .error _ => true)
    | none => roots
  roots

theorem mem_filter_of_true {α : Type} (p : α → Bool) (l : List α) (a : α)
    (hp : p a = true) : a ∈ l.filter p ↔ a ∈ l := by
  rw [List.mem_filter]
  constructor
  · exact And.left
  · intro h
    exact ⟨h, hp⟩

/-- C10: a root whose age is an error value passes both age filters for
every combination of bounds: its membership in the filtered list is the
same as with no age bounds configured, so it can only be excluded by the
profile, current, or accessibility filters. -/
theorem c10_error_age_passes_age_filters (roots : List GCRoot)
    (include_profiles include_current include_inaccessible : Bool)
    (older_bound newer_bound : Option Nat) (r : GCRoot) (e : String)
    (hage : r.age = Except.error e) :
    (r ∈ GCRoot.filter_roots roots include_profiles include_current
        include_inaccessible older_bound newer_bound ↔
      r ∈ GCRoot.filter_roots roots include_profiles include_current
        include_inaccessible none none) := by
  simp only [GCRoot.filter_roots]
  cases older_bound with
  | none =>
      cases newer_bound with
      | none => exact Iff.rfl
      | some nb => exact mem_filter_of_true _ _ r (by simp [hage])
  | some ob =>
      cases newer_bound with
      | none => exact mem_filter_of_true _ _ r (by simp [hage])
      | some nb =>
          rw [mem_filter_of_true _ _ r (by simp [hage]),
            mem_filter_of_true _ _ r (by simp [hage])]

/-- A root with unreadable link metadata, used in the C10 witness. -/
def c10root : GCRoot :=
  ⟨false, false, Except.ok 0, Except.error "unable to get metadata"⟩

/-- Witness for the C10 theorem: one error-age root, both bounds set. -/
theorem c10_error_age_passes_age_filters_witness :
    c10root.age = Except.error "unable to get metadata" ∧
    (c10root ∈ GCRoot.filter_roots [c10root] false false false
        (some 5) (some 7) ↔
      c10root ∈ GCRoot.filter_roots [c10root] false false false none none) :=
  ⟨rfl, c10_error_age_passes_age_filters [c10root] false false false
    (some 5) (some 7) c10root "unable to get metadata" rfl⟩

end NixSweep
